import Mathlib

/-!
# corde: command registration builders (`register-commands.go`)

A shallow embedding of the typed option builders, their conversion to the
canonical `CreateOption` shape and the JSON encoding driven by the struct tags
of `CreateOption`.

Conventions of the embedding:

* `OptionType` and `CommandType` are integer types whose constants
  (`OPTION_STRING`, ..., `COMMAND_CHAT_INPUT`) are declared in another file of
  the package; they are taken as parameters (`OptionTypes`, `CommandTypes`).
* A type parameter `T` constrained by `CommandOptionConstraint` is a value of
  `Kind`; a Go interface value of static type `any` holding one of these
  scalars is a dependent pair of its dynamic type and its value.
* `CreateOptioner` is the closed set of types of this file that have the
  unexported method `createOption`; values are non-nil, as returned by the
  constructors.
* `json.Marshal` is modelled up to the document it writes: an ordered JSON
  tree (`JSON`), and `none` when it reports an error.
-/

namespace Corde

/-- The integer type of option discriminators (`OptionType`). -/
abbrev OptionType := Int

/-- The option discriminator constants used by this file; their values are
declared elsewhere in the package. -/
structure OptionTypes where
  OPTION_SUB_COMMAND : OptionType
  OPTION_SUB_COMMAND_GROUP : OptionType
  OPTION_STRING : OptionType
  OPTION_INTEGER : OptionType
  OPTION_BOOLEAN : OptionType
  OPTION_NUMBER : OptionType

/-- A `float64`, as its IEEE-754 binary64 bit pattern (taken modulo `2^64`). -/
structure Float64 where
  bits : Nat
deriving DecidableEq, Repr

/-- The biased exponent field of a `float64`. -/
def Float64.exponent (f : Float64) : Nat := (f.bits / 2 ^ 52) % 2 ^ 11

/-- A `float64` is finite when it is neither an infinity nor a NaN. -/
def Float64.isFinite (f : Float64) : Bool := f.exponent != 2047

/-- The types admitted by `CommandOptionConstraint`:
`string | int | bool | float64`. -/
inductive Kind where
  | string
  | int
  | bool
  | float64
deriving DecidableEq, Repr

/-- The Go values of a type admitted by `CommandOptionConstraint`. -/
def Kind.Val : Kind → Type
  | .string => String
  | .int => Int
  | .bool => Bool
  | .float64 => Float64

instance (k : Kind) : DecidableEq k.Val := by
  cases k <;> unfold Kind.Val <;> infer_instance

/-- An interface value of static type `any` holding a supported scalar: its
dynamic type together with its value. -/
abbrev AnyValue := (k : Kind) × k.Val

/-- Modelled from the spec: the declaration of `Choice[T]` is in another file
of the package; the spec gives it as `{name: string, value: T}`. -/
structure Choice (α : Type) where
  Name : String
  Value : α

/-- The struct `CommandOption[T]`, with `T` given by its kind. -/
structure CommandOption (k : Kind) where
  Name : String
  Description : String
  Required : Bool
  Choices : List (Choice k.Val)

mutual
/-- The struct `CreateOption`, the base option type. -/
inductive CreateOption where
  | mk (Name : String) (Type_ : OptionType) (Description : String) (Required : Bool)
      (Options : List CreateOptioner) (Choices : List (Choice AnyValue))
/-- The struct `SubcommandOption`. -/
inductive SubcommandOption where
  | mk (Name : String) (Description : String) (Options : List CreateOptioner)
/-- The struct `SubcommandGroupOption`. -/
inductive SubcommandGroupOption where
  | mk (Name : String) (Description : String) (Options : List CreateOptioner)
/-- A value of interface type `CreateOptioner`: one of the types with a
`createOption` method. -/
inductive CreateOptioner where
  | ofCreateOption (c : CreateOption)
  | ofCommandOption (k : Kind) (c : CommandOption k)
  | ofSubcommand (o : SubcommandOption)
  | ofSubcommandGroup (o : SubcommandGroupOption)
end

/-! ## Field access -/

/-- Field `Name` of a `CreateOption`. -/
def CreateOption.Name : CreateOption → String
  | .mk n _ _ _ _ _ => n

/-- Field `Type` of a `CreateOption`. -/
def CreateOption.Type_ : CreateOption → OptionType
  | .mk _ t _ _ _ _ => t

/-- Field `Description` of a `CreateOption`. -/
def CreateOption.Description : CreateOption → String
  | .mk _ _ d _ _ _ => d

/-- Field `Required` of a `CreateOption`. -/
def CreateOption.Required : CreateOption → Bool
  | .mk _ _ _ r _ _ => r

/-- Field `Options` of a `CreateOption`. -/
def CreateOption.Options : CreateOption → List CreateOptioner
  | .mk _ _ _ _ os _ => os

/-- Field `Choices` of a `CreateOption`. -/
def CreateOption.Choices : CreateOption → List (Choice AnyValue)
  | .mk _ _ _ _ _ cs => cs

/-- Field `Name` of a `SubcommandOption`. -/
def SubcommandOption.Name : SubcommandOption → String
  | .mk n _ _ => n

/-- Field `Description` of a `SubcommandOption`. -/
def SubcommandOption.Description : SubcommandOption → String
  | .mk _ d _ => d

/-- Field `Options` of a `SubcommandOption`. -/
def SubcommandOption.Options : SubcommandOption → List CreateOptioner
  | .mk _ _ os => os

/-- Field `Name` of a `SubcommandGroupOption`. -/
def SubcommandGroupOption.Name : SubcommandGroupOption → String
  | .mk n _ _ => n

/-- Field `Description` of a `SubcommandGroupOption`. -/
def SubcommandGroupOption.Description : SubcommandGroupOption → String
  | .mk _ d _ => d

/-- Field `Options` of a `SubcommandGroupOption`. -/
def SubcommandGroupOption.Options : SubcommandGroupOption → List CreateOptioner
  | .mk _ _ os => os

/-! ## Constructors and conversion to canonical form -/

/-- Method `CreateOption.createOption`: a canonical option converts to itself. -/
def CreateOption.createOption (c : CreateOption) : CreateOption := c

/-- Function `NewCommandOption[T]`. -/
def NewCommandOption (k : Kind) (name description : String) (required : Bool)
    (choices : List (Choice k.Val)) : CommandOption k :=
  { Name := name, Description := description, Required := required, Choices := choices }

/-- The text `fmt.Sprintf("%T", t)` prints for the zero value `t` of `T`. -/
def typeName : Kind → String
  | .string => "string"
  | .int => "int"
  | .bool => "bool"
  | .float64 => "float64"

/-- The `switch` of `(*CommandOption[T]).createOption` on the type name: the
discriminator assigned by the matching case, `none` when no case matches. -/
def switchType (codes : OptionTypes) (s : String) : Option OptionType :=
  if s = "string" then some codes.OPTION_STRING
  else if s = "int" then some codes.OPTION_INTEGER
  else if s = "bool" then some codes.OPTION_BOOLEAN
  else if s = "float64" then some codes.OPTION_NUMBER
  else none

/-- The element appended by one round of the loop over `c.Choices`: the typed
choice with its value stored as `any`. -/
def eraseChoice (k : Kind) (ch : Choice k.Val) : Choice AnyValue :=
  { Name := ch.Name, Value := ⟨k, ch.Value⟩ }

/-- The loop of `(*CommandOption[T]).createOption` over `c.Choices`: each
choice is appended to the result with its value stored as `any`. -/
def eraseChoices (k : Kind) (cs : List (Choice k.Val)) : List (Choice AnyValue) :=
  cs.foldl (fun acc ch => acc ++ [eraseChoice k ch]) []

/-- Method `(*CommandOption[T]).createOption`. `typ` starts at the zero value of
`OptionType` and is assigned by the switch; `Options` is left unset. -/
def CommandOption.createOption (codes : OptionTypes) {k : Kind} (c : CommandOption k) :
    CreateOption :=
  let typ : OptionType := (switchType codes (typeName k)).getD 0
  let choices := eraseChoices k c.Choices
  .mk c.Name typ c.Description c.Required [] choices

/-- Function `NewSubcommand`. -/
def NewSubcommand (name description : String) (options : List CreateOptioner) :
    SubcommandOption :=
  .mk name description options

/-- Method `(*SubcommandOption).createOption`. -/
def SubcommandOption.createOption (codes : OptionTypes) (o : SubcommandOption) :
    CreateOption :=
  .mk o.Name codes.OPTION_SUB_COMMAND o.Description false o.Options []

/-- Function `NewSubcommandGroup`. -/
def NewSubcommandGroup (name description : String) (options : List CreateOptioner) :
    SubcommandGroupOption :=
  .mk name description options

/-- Method `(*SubcommandGroupOption).createOption`. -/
def SubcommandGroupOption.createOption (codes : OptionTypes) (o : SubcommandGroupOption) :
    CreateOption :=
  .mk o.Name codes.OPTION_SUB_COMMAND_GROUP o.Description false o.Options []

/-- The method `createOption` called on a `CreateOptioner` interface value:
dispatch on the dynamic type. -/
def CreateOptioner.createOption (codes : OptionTypes) : CreateOptioner → CreateOption
  | .ofCreateOption c => c.createOption
  | .ofCommandOption _ c => c.createOption codes
  | .ofSubcommand o => o.createOption codes
  | .ofSubcommandGroup o => o.createOption codes

/-! ## Encoding -/

/-- The document written by `json.Marshal`: a JSON value whose object members
are kept in the order in which they are written. -/
inductive JSON where
  | null
  | bool (b : Bool)
  | int (i : Int)
  | float (f : Float64)
  | str (s : String)
  | arr (items : List JSON)
  | obj (members : List (String × JSON))

/-- The keys of a JSON object, in written order (no keys for other values). -/
def JSON.keys : JSON → List String
  | .obj ms => ms.map Prod.fst
  | _ => []

/-- The value of the first member with the given key, if any. -/
def JSON.get? (key : String) : JSON → Option JSON
  | .obj ms => (ms.find? (fun m => m.1 == key)).map Prod.snd
  | _ => none

/-- Function `json.Marshal` on the `Value any` of a choice: scalars are written as
they are; a `float64` that is an infinity or a NaN is an error. -/
def marshalValue : AnyValue → Option JSON
  | ⟨.string, s⟩ => some (.str s)
  | ⟨.int, i⟩ => some (.int i)
  | ⟨.bool, b⟩ => some (.bool b)
  | ⟨.float64, f⟩ => if f.isFinite then some (.float f) else none

/-- Modelled from the spec: `json.Marshal` on a `Choice[any]`, whose struct
declaration is in another file; the spec gives the wire shape
`{"name", "value"}`. -/
def marshalChoice (c : Choice AnyValue) : Option JSON :=
  (marshalValue c.Value).map (fun v => .obj [("name", .str c.Name), ("value", v)])

/-- Function `json.Marshal` on a `[]Choice[any]`: the elements in order, an error if
any element fails. -/
def marshalChoices : List (Choice AnyValue) → Option (List JSON)
  | [] => some []
  | c :: cs =>
    match marshalChoice c, marshalChoices cs with
    | some j, some js => some (j :: js)
    | _, _ => none

/-- The members `json.Marshal` writes for a `CreateOption` struct, given the
encodings of the elements of its `Options` and of its `Choices`. They follow
the struct tags, in field order: `name` and `type` are always written;
`description`, `required`, `options` and `choices` are tagged `omitempty` and
are left out when the field is `""`, `false` or of length zero. -/
def createOptionMembers (c : CreateOption) (os chs : List JSON) : List (String × JSON) :=
  [("name", .str c.Name), ("type", .int c.Type_)]
    ++ (if c.Description = "" then [] else [("description", .str c.Description)])
    ++ (if c.Required = false then [] else [("required", .bool c.Required)])
    ++ (if c.Options.length = 0 then [] else [("options", .arr os)])
    ++ (if c.Choices.length = 0 then [] else [("choices", .arr chs)])

/-- Function `json.Marshal` on a `CreateOption` struct, given the result of encoding
the elements of its `Options`: an object with the members of the struct, an
error if an element of `Options` or of `Choices` fails. -/
def encodeCreateOption (c : CreateOption) (options : Option (List JSON)) : Option JSON :=
  match options, marshalChoices c.Choices with
  | some os, some chs => some (.obj (createOptionMembers c os chs))
  | _, _ => none

mutual
/-- Function `json.Marshal` on a `CreateOptioner` interface value. A `CreateOption` is
written as a struct; the builder types implement `MarshalJSON` as
`json.Marshal(x.createOption())`. The elements of `Options` are interface
values and are written by the same function; the canonical form of a leaf has
no `Options`, so none are written for it. -/
def marshal (codes : OptionTypes) : CreateOptioner → Option JSON
  | .ofCreateOption (.mk n t d r os cs) =>
    encodeCreateOption (CreateOption.createOption (.mk n t d r os cs)) (marshalOptions codes os)
  | .ofCommandOption _ c =>
    encodeCreateOption (c.createOption codes) (some [])
  | .ofSubcommand (.mk n d os) =>
    encodeCreateOption ((SubcommandOption.mk n d os).createOption codes) (marshalOptions codes os)
  | .ofSubcommandGroup (.mk n d os) =>
    encodeCreateOption ((SubcommandGroupOption.mk n d os).createOption codes)
      (marshalOptions codes os)
/-- Function `json.Marshal` on a `[]CreateOptioner`: the elements in order, an error
if any element fails. -/
def marshalOptions (codes : OptionTypes) : List CreateOptioner → Option (List JSON)
  | [] => some []
  | v :: vs =>
    match marshal codes v, marshalOptions codes vs with
    | some j, some js => some (j :: js)
    | _, _ => none
end

/-- The text `encoding/json` writes for one character of a string, with the
HTML escaping that `json.Marshal` applies (strings are valid Unicode text
here; the short escapes for backspace and form feed are those of Go 1.22 and
later). -/
def escapeChar (c : Char) : String :=
  if c.toNat = 34 then "\\\""
  else if c.toNat = 92 then "\\\\"
  else if c.toNat = 8 then "\\b"
  else if c.toNat = 12 then "\\f"
  else if c.toNat = 10 then "\\n"
  else if c.toNat = 13 then "\\r"
  else if c.toNat = 9 then "\\t"
  else if c.toNat < 32 ∨ c.toNat = 60 ∨ c.toNat = 62 ∨ c.toNat = 38 then
    "\\u00" ++ String.singleton (Nat.digitChar (c.toNat / 16))
      ++ String.singleton (Nat.digitChar (c.toNat % 16))
  else if c.toNat = 8232 then "\\u2028"
  else if c.toNat = 8233 then "\\u2029"
  else String.singleton c

/-- The quoted text of a string in the output of `json.Marshal`. -/
def quote (s : String) : String :=
  "\"" ++ String.join (s.toList.map escapeChar) ++ "\""

mutual
/-- The bytes `json.Marshal` writes for a document: compact, the members of
an object in the order they were written. The decimal text of a finite
`float64` is computed by `strconv` and is taken as a parameter. -/
def JSON.render (fmtFloat : Float64 → String) : JSON → String
  | .null => "null"
  | .bool b => if b then "true" else "false"
  | .int i => toString i
  | .float f => fmtFloat f
  | .str s => quote s
  | .arr items => "[" ++ renderItems fmtFloat items ++ "]"
  | .obj members => "\x7b" ++ renderMembers fmtFloat members ++ "\x7d"
/-- The elements of an array, separated by commas. -/
def renderItems (fmtFloat : Float64 → String) : List JSON → String
  | [] => ""
  | j :: js =>
    JSON.render fmtFloat j ++ (if js.isEmpty then "" else ",") ++ renderItems fmtFloat js
/-- The members of an object, separated by commas. -/
def renderMembers (fmtFloat : Float64 → String) : List (String × JSON) → String
  | [] => ""
  | (key, j) :: ms =>
    quote key ++ ":" ++ JSON.render fmtFloat j ++ (if ms.isEmpty then "" else ",")
      ++ renderMembers fmtFloat ms
end

/-- The result of `json.Marshal` on a `CreateOptioner` interface value as
bytes: `none` stands for a non-nil error. -/
def marshalBytes (codes : OptionTypes) (fmtFloat : Float64 → String) (v : CreateOptioner) :
    Option String :=
  (marshal codes v).map (JSON.render fmtFloat)

/-! ## Commands -/

/-- The integer type of command discriminators (`CommandType`). -/
abbrev CommandType := Int

/-- The command type constant used by this file; its value is declared
elsewhere in the package. -/
structure CommandTypes where
  COMMAND_CHAT_INPUT : CommandType

/-- The struct `CreateCommand`, a slash command that can be registered. -/
structure CreateCommand where
  Name : String
  Description : String
  Type_ : CommandType
  Options : List CreateOptioner

/-- Function `NewSlashCommand`. -/
def NewSlashCommand (types : CommandTypes) (name description : String)
    (options : List CreateOptioner) : CreateCommand :=
  { Name := name, Description := description, Options := options,
    Type_ := types.COMMAND_CHAT_INPUT }

/-- Method `CreateCommand.createCommand`: a command converts to itself. -/
def CreateCommand.createCommand (c : CreateCommand) : CreateCommand := c

/-- The members `json.Marshal` writes for a `CreateCommand` struct, given the
encodings of the elements of its `Options`. All four fields are tagged
`omitempty`: `name` and `description` are left out when `""`, `type` when
zero, `options` when of length zero. -/
def createCommandMembers (c : CreateCommand) (os : List JSON) : List (String × JSON) :=
  (if c.Name = "" then [] else [("name", .str c.Name)])
    ++ (if c.Description = "" then [] else [("description", .str c.Description)])
    ++ (if c.Type_ = 0 then [] else [("type", .int c.Type_)])
    ++ (if c.Options.length = 0 then [] else [("options", .arr os)])

/-- Function `json.Marshal` on a `CreateCommand` struct: an object with the members
of the struct, an error if an element of `Options` fails. -/
def marshalCommand (codes : OptionTypes) (c : CreateCommand) : Option JSON :=
  match marshalOptions codes c.Options with
  | some os => some (.obj (createCommandMembers c os))
  | none => none

/-- The result of `json.Marshal` on a `CreateCommand` as bytes: `none` stands
for a non-nil error. -/
def marshalCommandBytes (codes : OptionTypes) (fmtFloat : Float64 → String)
    (c : CreateCommand) : Option String :=
  (marshalCommand codes c).map (JSON.render fmtFloat)

/-! ## Predicates and reference definitions used in statements -/

/-- A choice value that `json.Marshal` can write: every scalar except a
`float64` that is an infinity or a NaN. -/
def finiteValue : AnyValue → Bool
  | ⟨.float64, f⟩ => f.isFinite
  | _ => true

mutual
/-- Every choice value anywhere in the tree of an option-like value can be
written by `json.Marshal`. -/
def finiteChoices : CreateOptioner → Bool
  | .ofCreateOption (.mk _ _ _ _ os cs) => cs.all (fun ch => finiteValue ch.Value)
      && finiteChoicesAll os
  | .ofCommandOption k c => c.Choices.all (fun ch => finiteValue ⟨k, ch.Value⟩)
  | .ofSubcommand (.mk _ _ os) => finiteChoicesAll os
  | .ofSubcommandGroup (.mk _ _ os) => finiteChoicesAll os
/-- The predicate `finiteChoices` on every element of a list. -/
def finiteChoicesAll : List CreateOptioner → Bool
  | [] => true
  | v :: vs => finiteChoices v && finiteChoicesAll vs
end

mutual
/-- The encoder of the spec, first half: "recursively converts every
option-like value it encounters to canonical form". The canonical form of a
value, with every element of its `Options` replaced by its own canonical tree. -/
def specCanonicalTree (codes : OptionTypes) : CreateOptioner → CreateOption
  | .ofCreateOption (.mk n t d r os cs) => .mk n t d r (specCanonicalTrees codes os) cs
  | .ofCommandOption _ c => c.createOption codes
  | .ofSubcommand (.mk n d os) =>
    .mk n codes.OPTION_SUB_COMMAND d false (specCanonicalTrees codes os) []
  | .ofSubcommandGroup (.mk n d os) =>
    .mk n codes.OPTION_SUB_COMMAND_GROUP d false (specCanonicalTrees codes os) []
/-- The canonical trees of the elements of a list, in order. -/
def specCanonicalTrees (codes : OptionTypes) : List CreateOptioner → List CreateOptioner
  | [] => []
  | v :: vs => .ofCreateOption (specCanonicalTree codes v) :: specCanonicalTrees codes vs
end

/-! ## Concrete values used in examples -/

/-- The values the Discord API gives to the option type constants, used where
a statement is instantiated at a concrete table. -/
def discordOptionTypes : OptionTypes where
  OPTION_SUB_COMMAND := 1
  OPTION_SUB_COMMAND_GROUP := 2
  OPTION_STRING := 3
  OPTION_INTEGER := 4
  OPTION_BOOLEAN := 5
  OPTION_NUMBER := 10

/-- The leaf `NewCommandOption[string]("q", "query", false)`. -/
def leafQ : CommandOption .string := NewCommandOption .string "q" "query" false []

/-- A group holding one subcommand holding the leaf `leafQ` made required. -/
def nestedExample : CreateOptioner :=
  .ofSubcommandGroup (NewSubcommandGroup "g" "group"
    [.ofSubcommand (NewSubcommand "s" "sub"
      [.ofCommandOption .string (NewCommandOption .string "q" "query" true [])])])

/-- The canonical option `{Name: "c", Type: 3, Description: "", Options: [leafQ],
Choices: [{"a", "x"}]}`. -/
def canonicalExample : CreateOption :=
  .mk "c" 3 "" false [.ofCommandOption .string leafQ] [{ Name := "a", Value := ⟨.string, "x"⟩ }]

/-- The value the Discord API gives to `COMMAND_CHAT_INPUT`. -/
def discordCommandTypes : CommandTypes where
  COMMAND_CHAT_INPUT := 1

/-- A quiet NaN of type `float64` (bit pattern `0x7FF8000000000000`). -/
def float64NaN : Float64 := ⟨0x7FF8000000000000⟩

/-- The leaf `NewCommandOption[float64]("n", "number", false,
Choice[float64]{Name: "nan", Value: math.NaN()})`. -/
def leafNaN : CommandOption .float64 :=
  NewCommandOption .float64 "n" "number" false [{ Name := "nan", Value := float64NaN }]

/-- The leaf `NewCommandOption[int]("i", "count", true, Choice[int]{"one", 1},
Choice[int]{"two", 2})`. -/
def leafInt : CommandOption .int :=
  NewCommandOption .int "i" "count" true [{ Name := "one", Value := (1 : Int) },
    { Name := "two", Value := (2 : Int) }]

/-! ## Lemmas on the conversion -/

theorem foldl_append_singleton {α β : Type} (f : α → β) (xs : List α) (acc : List β) :
    xs.foldl (fun acc x => acc ++ [f x]) acc = acc ++ xs.map f := by
  induction xs generalizing acc with
  | nil => simp
  | cons x xs ih => simp [List.foldl_cons, ih]

theorem eraseChoices_eq_map (k : Kind) (cs : List (Choice k.Val)) :
    eraseChoices k cs = cs.map (eraseChoice k) := by
  unfold eraseChoices
  have h := foldl_append_singleton (eraseChoice k) cs []
  simpa [eraseChoice] using h

/-! ## Leaf options -/

/-- C1: the canonical form of a leaf built by `NewCommandOption[T]` has the
discriminator of `T` (`OPTION_STRING` for string, `OPTION_INTEGER` for int,
`OPTION_BOOLEAN` for bool, `OPTION_NUMBER` for float64), whatever the name,
description, required flag and choices; two leaves of the same `T` always have
the same discriminator. -/
theorem leaf_discriminator_of_kind (codes : OptionTypes) (k : Kind) :
    (∀ (name description : String) (required : Bool) (choices : List (Choice k.Val)),
      ((NewCommandOption k name description required choices).createOption codes).Type_ =
        match k with
        | .string => codes.OPTION_STRING
        | .int => codes.OPTION_INTEGER
        | .bool => codes.OPTION_BOOLEAN
        | .float64 => codes.OPTION_NUMBER)
    ∧ ∀ c c' : CommandOption k, (c.createOption codes).Type_ = (c'.createOption codes).Type_ := by
  refine ⟨?_, fun _ _ => rfl⟩
  intro name description required choices
  cases k <;> rfl

/-- C2: for every `T` admitted by `CommandOptionConstraint` the switch on the
type name matches one of its four cases, so `typ` is always assigned; when the
four leaf constants are non-zero the canonical form never carries the zero
value of `OptionType`. -/
theorem leaf_switch_always_matches (codes : OptionTypes) (k : Kind) (c : CommandOption k) :
    typeName k ∈ ["string", "int", "bool", "float64"]
    ∧ (switchType codes (typeName k)).isSome = true
    ∧ (codes.OPTION_STRING ≠ 0 ∧ codes.OPTION_INTEGER ≠ 0 ∧ codes.OPTION_BOOLEAN ≠ 0
        ∧ codes.OPTION_NUMBER ≠ 0 → (c.createOption codes).Type_ ≠ 0) := by
  refine ⟨?_, ?_, ?_⟩
  · cases k <;> simp [typeName]
  · cases k <;> rfl
  · rintro ⟨hs, hi, hb, hn⟩
    cases k
    · exact hs
    · exact hi
    · exact hb
    · exact hn

/-- Witness of C2 at the Discord table and the leaf
`NewCommandOption[string]("q", "query", false)`. -/
theorem leaf_switch_always_matches_witness :
    (switchType discordOptionTypes (typeName .string)).isSome = true
    ∧ (leafQ.createOption discordOptionTypes).Type_ ≠ 0 :=
  have h := leaf_switch_always_matches discordOptionTypes .string leafQ
  ⟨h.2.1, h.2.2 (by decide)⟩

/-- C3: the choices of the canonical form of a leaf are the typed choices in
the same order, each with the same name and the same value stored as `any`:
the same number of entries, and entry `i` is the erasure of choice `i`. -/
theorem leaf_choices_preserved (codes : OptionTypes) (k : Kind) (name description : String)
    (required : Bool) (choices : List (Choice k.Val)) :
    ((NewCommandOption k name description required choices).createOption codes).Choices
      = choices.map (fun ch => { Name := ch.Name, Value := ⟨k, ch.Value⟩ })
    ∧ ((NewCommandOption k name description required choices).createOption codes).Choices.length
      = choices.length
    ∧ ∀ i : Nat,
      ((NewCommandOption k name description required choices).createOption codes).Choices[i]?
        = (choices[i]?).map (fun ch => { Name := ch.Name, Value := ⟨k, ch.Value⟩ }) := by
  have h : ((NewCommandOption k name description required choices).createOption codes).Choices
      = choices.map (eraseChoice k) := eraseChoices_eq_map k choices
  refine ⟨h, ?_, ?_⟩
  · rw [h, List.length_map]
  · intro i
    rw [h, List.getElem?_map]
    rfl

/-! ## Subcommands and subcommand groups -/

/-- Unfolding of `marshal`: a value is written as the struct encoding of its
canonical form, with the elements of the canonical `Options` written by
`marshal` in turn. -/
theorem marshal_eq_encode_createOption (codes : OptionTypes) (v : CreateOptioner) :
    marshal codes v =
      encodeCreateOption (v.createOption codes)
        (marshalOptions codes (v.createOption codes).Options) := by
  cases v with
  | ofCreateOption c => cases c; simp [marshal, CreateOptioner.createOption,
      CreateOption.createOption, CreateOption.Options]
  | ofCommandOption k c => simp [marshal, CreateOptioner.createOption,
      CommandOption.createOption, CreateOption.Options, marshalOptions]
  | ofSubcommand o => cases o; simp [marshal, CreateOptioner.createOption,
      SubcommandOption.createOption, CreateOption.Options, SubcommandOption.Options]
  | ofSubcommandGroup o => cases o; simp [marshal, CreateOptioner.createOption,
      SubcommandGroupOption.createOption, CreateOption.Options, SubcommandGroupOption.Options]

/-- C4, as stated, fails: the `Options` of the canonical form of a subcommand
(or group) holding the leaf `NewCommandOption[string]("q", "query", false)` is
not the list of the canonical forms of its children; it holds the leaf builder
itself. -/
theorem composite_options_not_converted :
    ((NewSubcommand "s" "d" [.ofCommandOption .string leafQ]).createOption
        discordOptionTypes).Options
      ≠ [CreateOptioner.ofCommandOption .string leafQ].map
          (fun ch => .ofCreateOption (ch.createOption discordOptionTypes))
    ∧ ((NewSubcommandGroup "g" "d" [.ofCommandOption .string leafQ]).createOption
        discordOptionTypes).Options
      ≠ [CreateOptioner.ofCommandOption .string leafQ].map
          (fun ch => .ofCreateOption (ch.createOption discordOptionTypes)) := by
  constructor <;> intro h <;>
    simp [NewSubcommand, NewSubcommandGroup, SubcommandOption.createOption,
      SubcommandGroupOption.createOption, SubcommandOption.Options,
      SubcommandGroupOption.Options, CreateOption.Options] at h

/-- C4, amended: the `Options` of the canonical form of a subcommand or
subcommand group are its children themselves, in the same order and not
converted; a child is converted when it is encoded: every option-like value is
written as the struct encoding of its canonical form. -/
theorem composite_options_copied (codes : OptionTypes) (name description : String)
    (children : List CreateOptioner) :
    ((NewSubcommand name description children).createOption codes).Options = children
    ∧ ((NewSubcommandGroup name description children).createOption codes).Options = children
    ∧ ∀ ch : CreateOptioner, marshal codes ch =
        encodeCreateOption (ch.createOption codes)
          (marshalOptions codes (ch.createOption codes).Options) :=
  ⟨rfl, rfl, marshal_eq_encode_createOption codes⟩

/-- C5: the canonical form of `NewSubcommand(name, description, children...)`
has type `OPTION_SUB_COMMAND`, that of `NewSubcommandGroup` has type
`OPTION_SUB_COMMAND_GROUP`; both keep the name and the description, are not
required and have no choices. -/
theorem composite_canonical_fields (codes : OptionTypes) (name description : String)
    (children : List CreateOptioner) :
    (((NewSubcommand name description children).createOption codes).Type_
        = codes.OPTION_SUB_COMMAND
      ∧ ((NewSubcommand name description children).createOption codes).Name = name
      ∧ ((NewSubcommand name description children).createOption codes).Description = description
      ∧ ((NewSubcommand name description children).createOption codes).Required = false
      ∧ ((NewSubcommand name description children).createOption codes).Choices = [])
    ∧ (((NewSubcommandGroup name description children).createOption codes).Type_
        = codes.OPTION_SUB_COMMAND_GROUP
      ∧ ((NewSubcommandGroup name description children).createOption codes).Name = name
      ∧ ((NewSubcommandGroup name description children).createOption codes).Description
        = description
      ∧ ((NewSubcommandGroup name description children).createOption codes).Required = false
      ∧ ((NewSubcommandGroup name description children).createOption codes).Choices = []) :=
  ⟨⟨rfl, rfl, rfl, rfl, rfl⟩, ⟨rfl, rfl, rfl, rfl, rfl⟩⟩

/-! ## Two concrete documents -/

/-- C6: when `OPTION_SUB_COMMAND` is 1, `NewSubcommand("ping", "desc")` with no
children encodes to the document `{"name":"ping","description":"desc","type":1}`:
an object with exactly these three members and no `options` key.
`json.Marshal` writes the members in the field order of `CreateOption`, as the
bytes `{"name":"ping","type":1,"description":"desc"}`. -/
theorem subcommand_ping_document (codes : OptionTypes) (fmtFloat : Float64 → String)
    (h : codes.OPTION_SUB_COMMAND = 1) :
    (∃ members : List (String × JSON),
        marshal codes (.ofSubcommand (NewSubcommand "ping" "desc" [])) = some (.obj members)
        ∧ members.Perm [("name", .str "ping"), ("description", .str "desc"), ("type", .int 1)]
        ∧ "options" ∉ members.map Prod.fst
        ∧ members = [("name", .str "ping"), ("type", .int 1), ("description", .str "desc")])
    ∧ marshalBytes codes fmtFloat (.ofSubcommand (NewSubcommand "ping" "desc" []))
      = some "\x7b\"name\":\"ping\",\"type\":1,\"description\":\"desc\"\x7d" := by
  obtain ⟨c1, c2, c3, c4, c5, c6⟩ := codes
  simp only at h
  subst h
  refine ⟨⟨[("name", .str "ping"), ("type", .int 1), ("description", .str "desc")],
    rfl, ?_, by decide, rfl⟩, rfl⟩
  exact (List.Perm.swap _ _ _).cons _

/-- Witness of C6 at the Discord table. -/
theorem subcommand_ping_document_witness :
    ∃ members : List (String × JSON),
      marshal discordOptionTypes (.ofSubcommand (NewSubcommand "ping" "desc" []))
        = some (.obj members)
      ∧ members.Perm [("name", .str "ping"), ("description", .str "desc"), ("type", .int 1)]
      ∧ "options" ∉ members.map Prod.fst :=
  let ⟨members, h1, h2, h3, _⟩ :=
    (subcommand_ping_document discordOptionTypes (fun _ => "0") rfl).1
  ⟨members, h1, h2, h3⟩

/-- C7: when `OPTION_STRING` is 3, `NewCommandOption[string]("q", "query", false)`
with no choices encodes to the document
`{"name":"q","description":"query","type":3}`: an object with exactly these
three members and neither a `required` nor a `choices` key. `json.Marshal`
writes the members in the field order of `CreateOption`, as the bytes
`{"name":"q","type":3,"description":"query"}`. -/
theorem leaf_q_document (codes : OptionTypes) (fmtFloat : Float64 → String)
    (h : codes.OPTION_STRING = 3) :
    (∃ members : List (String × JSON),
        marshal codes (.ofCommandOption .string (NewCommandOption .string "q" "query" false []))
          = some (.obj members)
        ∧ members.Perm [("name", .str "q"), ("description", .str "query"), ("type", .int 3)]
        ∧ "required" ∉ members.map Prod.fst
        ∧ "choices" ∉ members.map Prod.fst
        ∧ members = [("name", .str "q"), ("type", .int 3), ("description", .str "query")])
    ∧ marshalBytes codes fmtFloat
        (.ofCommandOption .string (NewCommandOption .string "q" "query" false []))
      = some "\x7b\"name\":\"q\",\"type\":3,\"description\":\"query\"\x7d" := by
  obtain ⟨c1, c2, c3, c4, c5, c6⟩ := codes
  simp only at h
  subst h
  refine ⟨⟨[("name", .str "q"), ("type", .int 3), ("description", .str "query")],
    rfl, ?_, by decide, by decide, rfl⟩, rfl⟩
  exact (List.Perm.swap _ _ _).cons _

/-- Witness of C7 at the Discord table. -/
theorem leaf_q_document_witness :
    ∃ members : List (String × JSON),
      marshal discordOptionTypes
          (.ofCommandOption .string (NewCommandOption .string "q" "query" false []))
        = some (.obj members)
      ∧ members.Perm [("name", .str "q"), ("description", .str "query"), ("type", .int 3)]
      ∧ "required" ∉ members.map Prod.fst
      ∧ "choices" ∉ members.map Prod.fst :=
  let ⟨members, h1, h2, h3, h4, _⟩ :=
    (leaf_q_document discordOptionTypes (fun _ => "0") rfl).1
  ⟨members, h1, h2, h3, h4⟩

/-! ## Omission rules -/

theorem encodeCreateOption_eq_some {c : CreateOption} {options : Option (List JSON)} {d : JSON}
    (h : encodeCreateOption c options = some d) :
    ∃ os chs, options = some os ∧ marshalChoices c.Choices = some chs
      ∧ d = .obj (createOptionMembers c os chs) := by
  unfold encodeCreateOption at h
  split at h
  · next os chs hc =>
    refine ⟨os, chs, rfl, hc, ?_⟩
    simpa using h.symm
  · simp at h

theorem marshal_eq_some {codes : OptionTypes} {v : CreateOptioner} {d : JSON}
    (h : marshal codes v = some d) :
    ∃ os chs, marshalOptions codes (v.createOption codes).Options = some os
      ∧ marshalChoices (v.createOption codes).Choices = some chs
      ∧ d = .obj (createOptionMembers (v.createOption codes) os chs) := by
  rw [marshal_eq_encode_createOption] at h
  exact encodeCreateOption_eq_some h

theorem marshalOptions_forall₂ (codes : OptionTypes) :
    ∀ (vs : List CreateOptioner) (js : List JSON), marshalOptions codes vs = some js →
      List.Forall₂ (fun v j => marshal codes v = some j) vs js
  | [], js, h => by
    simp [marshalOptions] at h
    subst h
    exact List.Forall₂.nil
  | v :: vs, js, h => by
    simp only [marshalOptions] at h
    split at h
    · next j js' hj hjs =>
      simp at h
      subst h
      exact List.Forall₂.cons hj (marshalOptions_forall₂ codes vs js' hjs)
    · simp at h

theorem marshalChoices_forall₂ :
    ∀ (cs : List (Choice AnyValue)) (js : List JSON), marshalChoices cs = some js →
      List.Forall₂ (fun c j => marshalChoice c = some j) cs js
  | [], js, h => by
    simp [marshalChoices] at h
    subst h
    exact List.Forall₂.nil
  | c :: cs, js, h => by
    simp only [marshalChoices] at h
    split at h
    · next j js' hj hjs =>
      simp at h
      subst h
      exact List.Forall₂.cons hj (marshalChoices_forall₂ cs js' hjs)
    · simp at h

theorem keys_createOptionMembers (c : CreateOption) (os chs : List JSON) :
    (JSON.obj (createOptionMembers c os chs)).keys =
      ["name", "type"]
        ++ (if c.Description = "" then [] else ["description"])
        ++ (if c.Required = false then [] else ["required"])
        ++ (if c.Options.length = 0 then [] else ["options"])
        ++ (if c.Choices.length = 0 then [] else ["choices"]) := by
  simp only [JSON.keys, createOptionMembers]
  split_ifs <;> simp

theorem get?_name (c : CreateOption) (os chs : List JSON) :
    (JSON.obj (createOptionMembers c os chs)).get? "name" = some (.str c.Name) := by
  simp [JSON.get?, createOptionMembers]

theorem get?_type (c : CreateOption) (os chs : List JSON) :
    (JSON.obj (createOptionMembers c os chs)).get? "type" = some (.int c.Type_) := by
  simp [JSON.get?, createOptionMembers, List.find?]

theorem get?_description (c : CreateOption) (os chs : List JSON) :
    (JSON.obj (createOptionMembers c os chs)).get? "description" =
      if c.Description = "" then none else some (.str c.Description) := by
  simp only [JSON.get?, createOptionMembers]
  split_ifs <;> simp [List.find?]

theorem get?_required (c : CreateOption) (os chs : List JSON) :
    (JSON.obj (createOptionMembers c os chs)).get? "required" =
      if c.Required = false then none else some (.bool c.Required) := by
  simp only [JSON.get?, createOptionMembers]
  split_ifs <;> simp [List.find?]

theorem get?_options (c : CreateOption) (os chs : List JSON) :
    (JSON.obj (createOptionMembers c os chs)).get? "options" =
      if c.Options.length = 0 then none else some (.arr os) := by
  simp only [JSON.get?, createOptionMembers]
  split_ifs <;> simp [List.find?]

theorem get?_choices (c : CreateOption) (os chs : List JSON) :
    (JSON.obj (createOptionMembers c os chs)).get? "choices" =
      if c.Choices.length = 0 then none else some (.arr chs) := by
  simp only [JSON.get?, createOptionMembers]
  split_ifs <;> simp [List.find?]

theorem marshalChoices_isSome_iff (cs : List (Choice AnyValue)) :
    (marshalChoices cs).isSome = true ↔ ∀ ch ∈ cs, (marshalValue ch.Value).isSome = true := by
  induction cs with
  | nil => simp [marshalChoices]
  | cons c cs ih =>
    simp only [marshalChoices, List.mem_cons, forall_eq_or_imp, ← ih]
    cases hc : marshalValue c.Value <;> cases hcs : marshalChoices cs <;>
      simp [marshalChoice, hc]

theorem marshal_leaf_isSome_iff (codes : OptionTypes) (k : Kind) (c : CommandOption k) :
    (marshal codes (.ofCommandOption k c)).isSome = true
      ↔ ∀ ch ∈ c.Choices, (marshalValue ⟨k, ch.Value⟩).isSome = true := by
  have h : (marshal codes (.ofCommandOption k c)).isSome
      = (marshalChoices (eraseChoices k c.Choices)).isSome := by
    simp only [marshal, encodeCreateOption, CommandOption.createOption, CreateOption.Choices]
    cases marshalChoices (eraseChoices k c.Choices) <;> rfl
  rw [h, marshalChoices_isSome_iff, eraseChoices_eq_map]
  simp [eraseChoice]

theorem marshalOptions_singleton_isSome (codes : OptionTypes) (v : CreateOptioner) :
    (marshalOptions codes [v]).isSome = (marshal codes v).isSome := by
  simp only [marshalOptions]
  cases marshal codes v <;> rfl

theorem marshal_subcommand_isSome (codes : OptionTypes) (o : SubcommandOption) :
    (marshal codes (.ofSubcommand o)).isSome = (marshalOptions codes o.Options).isSome := by
  cases o with
  | mk n d os =>
    simp only [marshal, encodeCreateOption, SubcommandOption.createOption,
      CreateOption.Choices, marshalChoices, SubcommandOption.Options]
    cases marshalOptions codes os <;> rfl

theorem marshal_group_isSome (codes : OptionTypes) (o : SubcommandGroupOption) :
    (marshal codes (.ofSubcommandGroup o)).isSome = (marshalOptions codes o.Options).isSome := by
  cases o with
  | mk n d os =>
    simp only [marshal, encodeCreateOption, SubcommandGroupOption.createOption,
      CreateOption.Choices, marshalChoices, SubcommandGroupOption.Options]
    cases marshalOptions codes os <;> rfl

/-- C8: in every document the encoder returns for an option-like value, the
key `required` is present exactly when the required flag of the value (of its
canonical form) is true, and then its value is `true`; `"required": false` is
never written; a leaf has the key exactly when its `Required` field is true,
and a subcommand or subcommand group never has it. -/
theorem required_key_iff_flag (codes : OptionTypes) (v : CreateOptioner) (d : JSON)
    (h : marshal codes v = some d) :
    ("required" ∈ d.keys ↔ (v.createOption codes).Required = true)
    ∧ ((v.createOption codes).Required = true → d.get? "required" = some (.bool true))
    ∧ d.get? "required" ≠ some (.bool false)
    ∧ (∀ (k : Kind) (c : CommandOption k), v = .ofCommandOption k c →
        ("required" ∈ d.keys ↔ c.Required = true))
    ∧ (∀ o : SubcommandOption, v = .ofSubcommand o → "required" ∉ d.keys)
    ∧ (∀ o : SubcommandGroupOption, v = .ofSubcommandGroup o → "required" ∉ d.keys) := by
  obtain ⟨os, chs, -, -, rfl⟩ := marshal_eq_some h
  have hk : "required" ∈ (JSON.obj (createOptionMembers (v.createOption codes) os chs)).keys
      ↔ (v.createOption codes).Required = true := by
    rw [keys_createOptionMembers]
    split_ifs <;> simp_all
  refine ⟨hk, ?_, ?_, ?_, ?_, ?_⟩
  · intro hr
    rw [get?_required, hr]
    rfl
  · rw [get?_required]
    cases (v.createOption codes).Required <;> simp
  · rintro k c rfl
    exact hk
  · rintro o rfl
    rw [hk]
    simp [CreateOptioner.createOption, SubcommandOption.createOption, CreateOption.Required]
  · rintro o rfl
    rw [hk]
    simp [CreateOptioner.createOption, SubcommandGroupOption.createOption, CreateOption.Required]

/-- Witness of C8: the required leaf `NewCommandOption[string]("q", "query",
true)` is written with `"required": true`. -/
theorem required_key_iff_flag_witness :
    marshal discordOptionTypes
        (.ofCommandOption .string (NewCommandOption .string "q" "query" true []))
      = some (.obj [("name", .str "q"), ("type", .int 3), ("description", .str "query"),
          ("required", .bool true)])
    ∧ ("required" ∈ (JSON.obj [("name", .str "q"), ("type", .int 3),
          ("description", .str "query"), ("required", .bool true)]).keys
        ↔ ((CreateOptioner.ofCommandOption .string
            (NewCommandOption .string "q" "query" true [])).createOption
              discordOptionTypes).Required = true) :=
  ⟨rfl, (required_key_iff_flag discordOptionTypes
    (.ofCommandOption .string (NewCommandOption .string "q" "query" true [])) _ rfl).1⟩

/-- C9: in every document the encoder returns for a canonical option, the key
`description` is present exactly when the description is non-empty, `options`
exactly when there are children and `choices` exactly when there are choices;
when present they carry the description itself, the encodings of the children
in order and the `{name, value}` objects of the choices in order; `name` and
`type` carry the fields themselves and no key outside the six fields is
written. -/
theorem canonical_omission_rules (codes : OptionTypes) (c : CreateOption) (d : JSON)
    (h : marshal codes (.ofCreateOption c) = some d) :
    ("description" ∈ d.keys ↔ c.Description ≠ "")
    ∧ ("options" ∈ d.keys ↔ c.Options ≠ [])
    ∧ ("choices" ∈ d.keys ↔ c.Choices ≠ [])
    ∧ (c.Description ≠ "" → d.get? "description" = some (.str c.Description))
    ∧ (c.Options ≠ [] → ∃ js, d.get? "options" = some (.arr js)
        ∧ List.Forall₂ (fun o j => marshal codes o = some j) c.Options js)
    ∧ (c.Choices ≠ [] → ∃ js, d.get? "choices" = some (.arr js)
        ∧ List.Forall₂ (fun ch j => ∃ val, marshalValue ch.Value = some val
            ∧ j = .obj [("name", .str ch.Name), ("value", val)]) c.Choices js)
    ∧ d.get? "name" = some (.str c.Name)
    ∧ d.get? "type" = some (.int c.Type_)
    ∧ d.keys.Sublist ["name", "type", "description", "required", "options", "choices"] := by
  obtain ⟨os, chs, hos, hchs, rfl⟩ := marshal_eq_some h
  have hc : (CreateOptioner.ofCreateOption c).createOption codes = c := rfl
  rw [hc] at hos hchs ⊢
  refine ⟨?_, ?_, ?_, ?_, ?_, ?_, get?_name c os chs, get?_type c os chs, ?_⟩
  · rw [keys_createOptionMembers]
    split_ifs <;> simp_all
  · rw [keys_createOptionMembers]
    cases hO : c.Options <;> split_ifs <;> simp_all
  · rw [keys_createOptionMembers]
    cases hC : c.Choices <;> split_ifs <;> simp_all
  · intro hd
    rw [get?_description, if_neg hd]
  · intro ho
    refine ⟨os, ?_, marshalOptions_forall₂ codes _ _ hos⟩
    rw [get?_options, if_neg (by simpa using ho)]
  · intro hch
    refine ⟨chs, ?_, ?_⟩
    · rw [get?_choices, if_neg (by simpa using hch)]
    · refine (marshalChoices_forall₂ _ _ hchs).imp ?_
      intro ch j hj
      unfold marshalChoice at hj
      cases hv : marshalValue ch.Value with
      | none => simp [hv] at hj
      | some val =>
        refine ⟨val, rfl, ?_⟩
        simpa [hv] using hj.symm
  · rw [keys_createOptionMembers]
    split_ifs <;> decide

/-- Witness of C9 at a canonical option with an empty description, one child
and one choice. -/
theorem canonical_omission_rules_witness :
    marshal discordOptionTypes (.ofCreateOption canonicalExample)
      = some (.obj [("name", .str "c"), ("type", .int 3),
          ("options", .arr [.obj [("name", .str "q"), ("type", .int 3),
            ("description", .str "query")]]),
          ("choices", .arr [.obj [("name", .str "a"), ("value", .str "x")]])])
    ∧ ("description" ∈ (JSON.obj [("name", .str "c"), ("type", .int 3),
          ("options", .arr [.obj [("name", .str "q"), ("type", .int 3),
            ("description", .str "query")]]),
          ("choices", .arr [.obj [("name", .str "a"), ("value", .str "x")]])]).keys
        ↔ canonicalExample.Description ≠ "") :=
  ⟨rfl, (canonical_omission_rules discordOptionTypes canonicalExample _ rfl).1⟩

/-- C10: a subcommand group holding one subcommand holding one leaf of kind
`T` is encoded exactly when the leaf is, and in the document the type is
`OPTION_SUB_COMMAND_GROUP` and `options` has exactly one element, the encoding
of the subcommand; its type is `OPTION_SUB_COMMAND` and its `options` has
exactly one element, the encoding of the leaf, whose type is the discriminator
of `T` and which has no `options` key. -/
theorem three_level_nesting (codes : OptionTypes) (k : Kind) (gName gDesc sName sDesc : String)
    (leaf : CommandOption k) :
    ((marshal codes (.ofSubcommandGroup (NewSubcommandGroup gName gDesc
        [.ofSubcommand (NewSubcommand sName sDesc [.ofCommandOption k leaf])]))).isSome = true
      ↔ (marshal codes (.ofCommandOption k leaf)).isSome = true)
    ∧ ∀ d : JSON,
      marshal codes (.ofSubcommandGroup (NewSubcommandGroup gName gDesc
        [.ofSubcommand (NewSubcommand sName sDesc [.ofCommandOption k leaf])])) = some d →
      d.get? "type" = some (.int codes.OPTION_SUB_COMMAND_GROUP)
      ∧ ∃ s l : JSON,
          d.get? "options" = some (.arr [s])
          ∧ marshal codes (.ofSubcommand (NewSubcommand sName sDesc [.ofCommandOption k leaf]))
              = some s
          ∧ s.get? "type" = some (.int codes.OPTION_SUB_COMMAND)
          ∧ s.get? "options" = some (.arr [l])
          ∧ marshal codes (.ofCommandOption k leaf) = some l
          ∧ l.get? "type" = some (.int (match k with
              | .string => codes.OPTION_STRING
              | .int => codes.OPTION_INTEGER
              | .bool => codes.OPTION_BOOLEAN
              | .float64 => codes.OPTION_NUMBER))
          ∧ "options" ∉ l.keys := by
  refine ⟨?_, ?_⟩
  · rw [marshal_group_isSome]
    simp only [NewSubcommandGroup, SubcommandGroupOption.Options]
    rw [marshalOptions_singleton_isSome, marshal_subcommand_isSome]
    simp only [NewSubcommand, SubcommandOption.Options]
    rw [marshalOptions_singleton_isSome]
  intro d h
  obtain ⟨os, chs, hos, -, rfl⟩ := marshal_eq_some h
  have hos' := marshalOptions_forall₂ codes _ _ hos
  have hG : ((CreateOptioner.ofSubcommandGroup (NewSubcommandGroup gName gDesc
      [.ofSubcommand (NewSubcommand sName sDesc [.ofCommandOption k leaf])])).createOption
        codes).Options
      = [.ofSubcommand (NewSubcommand sName sDesc [.ofCommandOption k leaf])] := rfl
  rw [hG] at hos'
  obtain ⟨s, rfl, hs⟩ : ∃ s, os = [s] ∧ marshal codes
      (.ofSubcommand (NewSubcommand sName sDesc [.ofCommandOption k leaf])) = some s := by
    cases hos' with
    | cons h1 h2 => cases h2; exact ⟨_, rfl, h1⟩
  obtain ⟨os2, chs2, hos2, -, rfl⟩ := marshal_eq_some hs
  have hos2' := marshalOptions_forall₂ codes _ _ hos2
  have hS : ((CreateOptioner.ofSubcommand (NewSubcommand sName sDesc
      [.ofCommandOption k leaf])).createOption codes).Options
      = [.ofCommandOption k leaf] := rfl
  rw [hS] at hos2'
  obtain ⟨l, rfl, hl⟩ : ∃ l, os2 = [l] ∧ marshal codes (.ofCommandOption k leaf) = some l := by
    cases hos2' with
    | cons h1 h2 => cases h2; exact ⟨_, rfl, h1⟩
  obtain ⟨os3, chs3, -, -, rfl⟩ := marshal_eq_some hl
  refine ⟨get?_type _ _ _, _, _, ?_, hs, get?_type _ _ _, ?_, hl, ?_, ?_⟩
  · rw [get?_options, hG]
    rfl
  · rw [get?_options, hS]
    rfl
  · rw [get?_type]
    cases k <;> rfl
  · rw [keys_createOptionMembers]
    have : ((CreateOptioner.ofCommandOption k leaf).createOption codes).Options = [] := rfl
    rw [this]
    split_ifs <;> simp_all

/-- Witness of C10 at a group holding a subcommand holding a required string
leaf, with the Discord table. -/
theorem three_level_nesting_witness :
    marshal discordOptionTypes nestedExample
      = some (.obj [("name", .str "g"), ("type", .int 2), ("description", .str "group"),
          ("options", .arr [.obj [("name", .str "s"), ("type", .int 1),
            ("description", .str "sub"),
            ("options", .arr [.obj [("name", .str "q"), ("type", .int 3),
              ("description", .str "query"), ("required", .bool true)]])]])])
    ∧ (JSON.obj [("name", .str "g"), ("type", .int 2), ("description", .str "group"),
          ("options", .arr [.obj [("name", .str "s"), ("type", .int 1),
            ("description", .str "sub"),
            ("options", .arr [.obj [("name", .str "q"), ("type", .int 3),
              ("description", .str "query"), ("required", .bool true)]])]])]).get? "type"
        = some (.int 2) :=
  ⟨rfl, ((three_level_nesting discordOptionTypes .string "g" "group" "s" "sub"
    (NewCommandOption .string "q" "query" true [])).2 _ rfl).1⟩

/-! ## Children in the encoded document -/

theorem forall₂_getElem?_bind {α β : Type} (f : α → Option β) :
    ∀ (xs : List α) (ys : List β), List.Forall₂ (fun x y => f x = some y) xs ys →
      ys.length = xs.length ∧ ∀ i : Nat, ys[i]? = (xs[i]?).bind f
  | [], _, h => by
    cases h
    simp
  | x :: xs, _, h => by
    cases h with
    | cons hxy hrest =>
      obtain ⟨hl, hi⟩ := forall₂_getElem?_bind f xs _ hrest
      refine ⟨by simp [hl], ?_⟩
      intro i
      cases i with
      | zero => simp [hxy]
      | succ i => simpa using hi i

theorem marshalCommand_eq_some {codes : OptionTypes} {c : CreateCommand} {d : JSON}
    (h : marshalCommand codes c = some d) :
    ∃ os, marshalOptions codes c.Options = some os ∧ d = .obj (createCommandMembers c os) := by
  unfold marshalCommand at h
  split at h
  · next os hos => exact ⟨os, hos, by simpa using h.symm⟩
  · simp at h

theorem keys_createCommandMembers (c : CreateCommand) (os : List JSON) :
    (JSON.obj (createCommandMembers c os)).keys =
      (if c.Name = "" then [] else ["name"])
        ++ (if c.Description = "" then [] else ["description"])
        ++ (if c.Type_ = 0 then [] else ["type"])
        ++ (if c.Options.length = 0 then [] else ["options"]) := by
  simp only [JSON.keys, createCommandMembers]
  split_ifs <;> simp

theorem command_get?_name (c : CreateCommand) (os : List JSON) :
    (JSON.obj (createCommandMembers c os)).get? "name" =
      if c.Name = "" then none else some (.str c.Name) := by
  simp only [JSON.get?, createCommandMembers]
  split_ifs <;> simp [List.find?]

theorem command_get?_options (c : CreateCommand) (os : List JSON) :
    (JSON.obj (createCommandMembers c os)).get? "options" =
      if c.Options.length = 0 then none else some (.arr os) := by
  simp only [JSON.get?, createCommandMembers]
  split_ifs <;> simp [List.find?]

/-- C11: in every document the encoder returns for a subcommand, a subcommand
group or a command built with children `ch_1..ch_n`, `n ≥ 1`, the `options`
array has exactly `n` elements and element `i` is the encoding of `ch_i`: the
order of the children is that of the builder call. As each element is itself
an encoding, the same holds inside every child. -/
theorem options_array_preserves_children (codes : OptionTypes) (types : CommandTypes)
    (name description : String) (children : List CreateOptioner) (hne : children ≠ []) :
    (∀ d : JSON, marshal codes (.ofSubcommand (NewSubcommand name description children)) = some d →
      ∃ js, d.get? "options" = some (.arr js) ∧ js.length = children.length
        ∧ ∀ i : Nat, js[i]? = (children[i]?).bind (marshal codes))
    ∧ (∀ d : JSON,
      marshal codes (.ofSubcommandGroup (NewSubcommandGroup name description children)) = some d →
      ∃ js, d.get? "options" = some (.arr js) ∧ js.length = children.length
        ∧ ∀ i : Nat, js[i]? = (children[i]?).bind (marshal codes))
    ∧ (∀ d : JSON,
      marshalCommand codes (NewSlashCommand types name description children) = some d →
      ∃ js, d.get? "options" = some (.arr js) ∧ js.length = children.length
        ∧ ∀ i : Nat, js[i]? = (children[i]?).bind (marshal codes)) := by
  have hlen : ¬ children.length = 0 := by simpa using hne
  refine ⟨?_, ?_, ?_⟩
  · intro d h
    obtain ⟨os, chs, hos, -, rfl⟩ := marshal_eq_some h
    have hO : ((CreateOptioner.ofSubcommand (NewSubcommand name description
        children)).createOption codes).Options = children := rfl
    rw [hO] at hos
    obtain ⟨hl, hi⟩ := forall₂_getElem?_bind _ _ _ (marshalOptions_forall₂ codes _ _ hos)
    refine ⟨os, ?_, hl, hi⟩
    rw [get?_options, hO, if_neg hlen]
  · intro d h
    obtain ⟨os, chs, hos, -, rfl⟩ := marshal_eq_some h
    have hO : ((CreateOptioner.ofSubcommandGroup (NewSubcommandGroup name description
        children)).createOption codes).Options = children := rfl
    rw [hO] at hos
    obtain ⟨hl, hi⟩ := forall₂_getElem?_bind _ _ _ (marshalOptions_forall₂ codes _ _ hos)
    refine ⟨os, ?_, hl, hi⟩
    rw [get?_options, hO, if_neg hlen]
  · intro d h
    obtain ⟨os, hos, rfl⟩ := marshalCommand_eq_some h
    have hO : (NewSlashCommand types name description children).Options = children := rfl
    rw [hO] at hos
    obtain ⟨hl, hi⟩ := forall₂_getElem?_bind _ _ _ (marshalOptions_forall₂ codes _ _ hos)
    refine ⟨os, ?_, hl, hi⟩
    rw [command_get?_options, hO, if_neg hlen]

/-- Witness of C11 at a subcommand with the children `leafQ`, `leafInt`. -/
theorem options_array_preserves_children_witness :
    marshal discordOptionTypes (.ofSubcommand (NewSubcommand "s" "sub"
        [.ofCommandOption .string leafQ, .ofCommandOption .int leafInt]))
      = some (.obj [("name", .str "s"), ("type", .int 1), ("description", .str "sub"),
          ("options", .arr [
            .obj [("name", .str "q"), ("type", .int 3), ("description", .str "query")],
            .obj [("name", .str "i"), ("type", .int 4), ("description", .str "count"),
              ("required", .bool true),
              ("choices", .arr [.obj [("name", .str "one"), ("value", .int 1)],
                .obj [("name", .str "two"), ("value", .int 2)]])]])])
    ∧ ∃ js, (JSON.obj [("name", .str "s"), ("type", .int 1), ("description", .str "sub"),
          ("options", .arr [
            .obj [("name", .str "q"), ("type", .int 3), ("description", .str "query")],
            .obj [("name", .str "i"), ("type", .int 4), ("description", .str "count"),
              ("required", .bool true),
              ("choices", .arr [.obj [("name", .str "one"), ("value", .int 1)],
                .obj [("name", .str "two"), ("value", .int 2)]])]])]).get? "options"
          = some (.arr js) ∧ js.length = 2 :=
  ⟨rfl,
    let ⟨js, h1, h2, _⟩ := (options_array_preserves_children discordOptionTypes
      discordCommandTypes "s" "sub"
      [.ofCommandOption .string leafQ, .ofCommandOption .int leafInt] (by simp)).1 _ rfl
    ⟨js, h1, h2⟩⟩

/-! ## Slash commands -/

/-- C12: `NewSlashCommand(name, description, children...)` returns a command
of type `COMMAND_CHAT_INPUT` with the given name, description and children in
the given order, and `createCommand` returns the same command, so the same
four field values. -/
theorem slash_command_fields (types : CommandTypes) (name description : String)
    (children : List CreateOptioner) :
    (NewSlashCommand types name description children).Type_ = types.COMMAND_CHAT_INPUT
    ∧ (NewSlashCommand types name description children).Name = name
    ∧ (NewSlashCommand types name description children).Description = description
    ∧ (NewSlashCommand types name description children).Options = children
    ∧ (NewSlashCommand types name description children).createCommand
        = NewSlashCommand types name description children
    ∧ (NewSlashCommand types name description children).createCommand.Type_
        = types.COMMAND_CHAT_INPUT
    ∧ (NewSlashCommand types name description children).createCommand.Name = name
    ∧ (NewSlashCommand types name description children).createCommand.Description = description
    ∧ (NewSlashCommand types name description children).createCommand.Options = children :=
  ⟨rfl, rfl, rfl, rfl, rfl, rfl, rfl, rfl, rfl⟩

/-! ## Errors of the encoder -/

theorem marshalValue_isSome (a : AnyValue) : (marshalValue a).isSome = finiteValue a := by
  obtain ⟨k, x⟩ := a
  cases k
  · rfl
  · rfl
  · rfl
  · simp only [marshalValue, finiteValue]
    cases Float64.isFinite x <;> rfl

theorem marshalChoices_isSome (cs : List (Choice AnyValue)) :
    (marshalChoices cs).isSome = cs.all (fun ch => finiteValue ch.Value) := by
  induction cs with
  | nil => rfl
  | cons c cs ih =>
    have hv := marshalValue_isSome c.Value
    simp only [marshalChoices, List.all_cons, marshalChoice]
    rw [← ih, ← hv]
    cases marshalValue c.Value <;> cases marshalChoices cs <;> rfl

theorem encodeCreateOption_isSome (c : CreateOption) (options : Option (List JSON)) :
    (encodeCreateOption c options).isSome
      = (options.isSome && (marshalChoices c.Choices).isSome) := by
  unfold encodeCreateOption
  cases options <;> cases marshalChoices c.Choices <;> rfl

theorem eraseChoices_all_finite (k : Kind) (cs : List (Choice k.Val)) :
    (eraseChoices k cs).all (fun ch => finiteValue ch.Value)
      = cs.all (fun ch => finiteValue ⟨k, ch.Value⟩) := by
  rw [eraseChoices_eq_map]
  induction cs with
  | nil => rfl
  | cons c cs ih => simp only [List.map_cons, List.all_cons, ih, eraseChoice]

mutual
theorem marshal_isSome (codes : OptionTypes) :
    ∀ v : CreateOptioner, (marshal codes v).isSome = finiteChoices v
  | .ofCreateOption (.mk n t d r os cs) => by
    simp only [marshal, finiteChoices, encodeCreateOption_isSome, CreateOption.createOption,
      CreateOption.Choices, marshalChoices_isSome, marshalOptions_isSome codes os]
    exact Bool.and_comm _ _
  | .ofCommandOption k c => by
    simp only [marshal, finiteChoices, encodeCreateOption_isSome, CommandOption.createOption,
      CreateOption.Choices, marshalChoices_isSome, eraseChoices_all_finite]
    rfl
  | .ofSubcommand (.mk n d os) => by
    simp only [marshal, finiteChoices, encodeCreateOption_isSome,
      SubcommandOption.createOption, CreateOption.Choices, marshalChoices_isSome,
      marshalOptions_isSome codes os]
    simp
  | .ofSubcommandGroup (.mk n d os) => by
    simp only [marshal, finiteChoices, encodeCreateOption_isSome,
      SubcommandGroupOption.createOption, CreateOption.Choices, marshalChoices_isSome,
      marshalOptions_isSome codes os]
    simp
theorem marshalOptions_isSome (codes : OptionTypes) :
    ∀ vs : List CreateOptioner, (marshalOptions codes vs).isSome = finiteChoicesAll vs
  | [] => rfl
  | v :: vs => by
    simp only [marshalOptions, finiteChoicesAll, ← marshal_isSome codes v,
      ← marshalOptions_isSome codes vs]
    cases marshal codes v <;> cases marshalOptions codes vs <;> rfl
end

/-- C13, as stated, fails: the leaf built by `NewCommandOption[float64]` with
a choice whose value is NaN is not encoded, `json.Marshal` returns an error;
so does a slash command holding it. -/
theorem encoding_fails_on_nan_choice :
    marshal discordOptionTypes (.ofCommandOption .float64 leafNaN) = none
    ∧ marshalCommand discordOptionTypes (NewSlashCommand discordCommandTypes "c" "command"
        [.ofCommandOption .float64 leafNaN]) = none := by
  constructor <;> rfl

/-- C13, amended: encoding succeeds exactly when no `float64` choice value in
the tree is an infinity or a NaN. An option-like value is encoded without
error if and only if all its choice values are finite, a slash command if and
only if those of all its children are; in particular a leaf of kind string,
int or bool is always encoded. -/
theorem encoding_succeeds_iff_finite (codes : OptionTypes) (types : CommandTypes) :
    (∀ v : CreateOptioner, (marshal codes v).isSome = true ↔ finiteChoices v = true)
    ∧ (∀ (name description : String) (children : List CreateOptioner),
        (marshalCommand codes (NewSlashCommand types name description children)).isSome = true
          ↔ finiteChoicesAll children = true)
    ∧ (∀ (k : Kind) (c : CommandOption k), k ≠ .float64 →
        (marshal codes (.ofCommandOption k c)).isSome = true) := by
  refine ⟨?_, ?_, ?_⟩
  · intro v
    rw [marshal_isSome]
  · intro name description children
    have h : (marshalCommand codes (NewSlashCommand types name description children)).isSome
        = (marshalOptions codes children).isSome := by
      simp only [marshalCommand, NewSlashCommand]
      cases marshalOptions codes children <;> rfl
    rw [h, marshalOptions_isSome]
  · intro k c hk
    rw [marshal_isSome]
    simp only [finiteChoices, List.all_eq_true]
    intro ch _
    cases k
    · rfl
    · rfl
    · rfl
    · exact absurd rfl hk

/-- Witness of C13 (amended): the nested example has only finite choice
values and is encoded. -/
theorem encoding_succeeds_iff_finite_witness :
    (marshal discordOptionTypes nestedExample).isSome = true :=
  ((encoding_succeeds_iff_finite discordOptionTypes discordCommandTypes).1 nestedExample).2
    (by decide)

/-! ## Encoding a builder and encoding its canonical form -/

theorem specCanonicalTrees_length (codes : OptionTypes) (vs : List CreateOptioner) :
    (specCanonicalTrees codes vs).length = vs.length := by
  induction vs with
  | nil => rfl
  | cons v vs ih => simp [specCanonicalTrees, ih]

theorem encodeCreateOption_congr_options (n : String) (t : OptionType) (d : String) (r : Bool)
    (os os' : List CreateOptioner) (cs : List (Choice AnyValue)) (js : Option (List JSON))
    (h : os'.length = os.length) :
    encodeCreateOption (.mk n t d r os' cs) js = encodeCreateOption (.mk n t d r os cs) js := by
  simp only [encodeCreateOption, createOptionMembers, CreateOption.Name, CreateOption.Type_,
    CreateOption.Description, CreateOption.Required, CreateOption.Options,
    CreateOption.Choices, h]

mutual
theorem marshal_specCanonicalTree (codes : OptionTypes) :
    ∀ v : CreateOptioner,
      marshal codes (.ofCreateOption (specCanonicalTree codes v)) = marshal codes v
  | .ofCreateOption (.mk n t d r os cs) => by
    simp only [specCanonicalTree, marshal, CreateOption.createOption,
      marshalOptions_specCanonicalTrees codes os]
    exact encodeCreateOption_congr_options n t d r os _ cs _
      (specCanonicalTrees_length codes os)
  | .ofCommandOption k c => by
    rw [marshal_eq_encode_createOption codes (.ofCommandOption k c)]
    rw [marshal_eq_encode_createOption codes (.ofCreateOption _)]
    rfl
  | .ofSubcommand (.mk n d os) => by
    simp only [specCanonicalTree, marshal, CreateOption.createOption,
      SubcommandOption.createOption, SubcommandOption.Name, SubcommandOption.Description,
      SubcommandOption.Options, marshalOptions_specCanonicalTrees codes os]
    exact encodeCreateOption_congr_options n _ d false os _ [] _
      (specCanonicalTrees_length codes os)
  | .ofSubcommandGroup (.mk n d os) => by
    simp only [specCanonicalTree, marshal, CreateOption.createOption,
      SubcommandGroupOption.createOption, SubcommandGroupOption.Name,
      SubcommandGroupOption.Description, SubcommandGroupOption.Options,
      marshalOptions_specCanonicalTrees codes os]
    exact encodeCreateOption_congr_options n _ d false os _ [] _
      (specCanonicalTrees_length codes os)
theorem marshalOptions_specCanonicalTrees (codes : OptionTypes) :
    ∀ vs : List CreateOptioner,
      marshalOptions codes (specCanonicalTrees codes vs) = marshalOptions codes vs
  | [] => rfl
  | v :: vs => by
    simp only [specCanonicalTrees, marshalOptions, marshal_specCanonicalTree codes v,
      marshalOptions_specCanonicalTrees codes vs]
end

theorem marshal_ofCreateOption_createOption (codes : OptionTypes) (v : CreateOptioner) :
    marshal codes (.ofCreateOption (v.createOption codes)) = marshal codes v := by
  rw [marshal_eq_encode_createOption codes v,
    marshal_eq_encode_createOption codes (.ofCreateOption _)]
  rfl

/-- C14: encoding an option-like builder value gives exactly the document, and
the bytes, of encoding its canonical form `v.createOption()`; the same holds
for every element of an `options` sequence, and so at every depth: the
document is that of the tree in which every value has been replaced by its
canonical form. -/
theorem encode_builder_eq_encode_canonical (codes : OptionTypes)
    (fmtFloat : Float64 → String) (v : CreateOptioner) :
    marshal codes v = marshal codes (.ofCreateOption (v.createOption codes))
    ∧ marshalBytes codes fmtFloat v
        = marshalBytes codes fmtFloat (.ofCreateOption (v.createOption codes))
    ∧ (∀ vs : List CreateOptioner, marshalOptions codes vs
        = marshalOptions codes (vs.map (fun ch => .ofCreateOption (ch.createOption codes))))
    ∧ marshal codes v = marshal codes (.ofCreateOption (specCanonicalTree codes v)) := by
  refine ⟨(marshal_ofCreateOption_createOption codes v).symm, ?_, ?_,
    (marshal_specCanonicalTree codes v).symm⟩
  · simp only [marshalBytes, marshal_ofCreateOption_createOption]
  · intro vs
    induction vs with
    | nil => rfl
    | cons a as ih =>
      simp only [List.map_cons, marshalOptions, marshal_ofCreateOption_createOption, ← ih]

/-! ## Commands: the name key -/

/-- C15, as stated, fails: the command `NewSlashCommand("", "d")` is encoded
as `{"description":"d","type":1}`, without a `name` key. -/
theorem command_empty_name_omitted :
    marshalCommandBytes discordOptionTypes (fun _ => "0")
        (NewSlashCommand discordCommandTypes "" "d" [])
      = some "\x7b\"description\":\"d\",\"type\":1\x7d"
    ∧ ∃ d, marshalCommand discordOptionTypes (NewSlashCommand discordCommandTypes "" "d" [])
        = some d ∧ "name" ∉ d.keys :=
  ⟨rfl, _, rfl, by decide⟩

/-- C15, amended: every command built by `NewSlashCommand` whose children are
encoded is encoded, and the document has the `name` key, carrying the
command's name, exactly when the name is non-empty: `name` is tagged
`omitempty` like `description`, `type` and `options`, and no other key is
written. -/
theorem command_name_key_iff_nonempty (codes : OptionTypes) (types : CommandTypes)
    (name description : String) (children : List CreateOptioner) :
    ((marshalCommand codes (NewSlashCommand types name description children)).isSome = true
      ↔ (marshalOptions codes children).isSome = true)
    ∧ ∀ d : JSON,
      marshalCommand codes (NewSlashCommand types name description children) = some d →
      ("name" ∈ d.keys ↔ name ≠ "")
      ∧ (name ≠ "" → d.get? "name" = some (.str name))
      ∧ d.keys.Sublist ["name", "description", "type", "options"] := by
  refine ⟨?_, ?_⟩
  · simp only [marshalCommand, NewSlashCommand]
    cases marshalOptions codes children <;> simp
  intro d h
  obtain ⟨os, -, rfl⟩ := marshalCommand_eq_some h
  have hN : (NewSlashCommand types name description children).Name = name := rfl
  refine ⟨?_, ?_, ?_⟩
  · rw [keys_createCommandMembers, hN]
    split_ifs <;> simp_all
  · intro hn
    rw [command_get?_name, hN, if_neg hn]
  · rw [keys_createCommandMembers]
    split_ifs <;> decide

/-- Witness of C15 (amended) at `NewSlashCommand("ping", "d")`. -/
theorem command_name_key_iff_nonempty_witness :
    marshalCommand discordOptionTypes (NewSlashCommand discordCommandTypes "ping" "d" [])
      = some (.obj [("name", .str "ping"), ("description", .str "d"), ("type", .int 1)])
    ∧ (JSON.obj [("name", .str "ping"), ("description", .str "d"),
        ("type", .int 1)]).get? "name" = some (.str "ping") :=
  ⟨rfl, ((command_name_key_iff_nonempty discordOptionTypes discordCommandTypes "ping" "d"
    []).2 _ rfl).2.1 (by decide)⟩

/-! ## Leaf fields and fixed points -/

/-- C16: the canonical form of `NewCommandOption(name, description, required,
choices...)` has `Name = name`, `Description = description` and
`Required = required`, whatever their values. -/
theorem leaf_fields_copied (codes : OptionTypes) (k : Kind) (name description : String)
    (required : Bool) (choices : List (Choice k.Val)) :
    ((NewCommandOption k name description required choices).createOption codes).Name = name
    ∧ ((NewCommandOption k name description required choices).createOption codes).Description
        = description
    ∧ ((NewCommandOption k name description required choices).createOption codes).Required
        = required :=
  ⟨rfl, rfl, rfl⟩

/-- C18: canonical form is a fixed point of conversion: `createOption` of a
`CreateOption` and `createCommand` of a `CreateCommand` return the value
itself, so converting the canonical form of any option-like value again
returns the same canonical form. -/
theorem canonical_form_fixed_point (codes : OptionTypes) :
    (∀ o : CreateOption, o.createOption = o)
    ∧ (∀ c : CreateCommand, c.createCommand = c)
    ∧ (∀ v : CreateOptioner,
        (CreateOptioner.ofCreateOption (v.createOption codes)).createOption codes
          = v.createOption codes) :=
  ⟨fun _ => rfl, fun _ => rfl, fun _ => rfl⟩

/-- C19: the canonical form of a leaf of any kind has an empty `Options`, and
every document the encoder returns for a leaf has no `options` key. -/
theorem leaf_has_no_options (codes : OptionTypes) (k : Kind) (c : CommandOption k) :
    (c.createOption codes).Options = []
    ∧ ∀ d : JSON, marshal codes (.ofCommandOption k c) = some d →
      "options" ∉ d.keys ∧ d.get? "options" = none := by
  refine ⟨rfl, ?_⟩
  intro d h
  obtain ⟨os, chs, -, -, rfl⟩ := marshal_eq_some h
  have hO : ((CreateOptioner.ofCommandOption k c).createOption codes).Options = [] := rfl
  refine ⟨?_, ?_⟩
  · rw [keys_createOptionMembers, hO]
    split_ifs <;> simp_all
  · rw [get?_options, hO]
    rfl

/-- Witness of C19 at the leaf `leafInt`, which has choices but no `options`
key. -/
theorem leaf_has_no_options_witness :
    marshal discordOptionTypes (.ofCommandOption .int leafInt)
      = some (.obj [("name", .str "i"), ("type", .int 4), ("description", .str "count"),
          ("required", .bool true),
          ("choices", .arr [.obj [("name", .str "one"), ("value", .int 1)],
            .obj [("name", .str "two"), ("value", .int 2)]])])
    ∧ "options" ∉ (JSON.obj [("name", .str "i"), ("type", .int 4),
          ("description", .str "count"), ("required", .bool true),
          ("choices", .arr [.obj [("name", .str "one"), ("value", .int 1)],
            .obj [("name", .str "two"), ("value", .int 2)]])]).keys :=
  ⟨rfl, ((leaf_has_no_options discordOptionTypes .int leafInt).2 _ rfl).1⟩

end Corde
